import Mathlib

/-!
Verification of the commit-to-invoice derivation pipeline of the
invoice-generator repository.

The development shallowly embeds the core of `src/invoice-generator.ts`
(categorizer, hour allocator, source-resolution fallback, AI override and
invoice assembly), `src/ai-analyzer.ts` (AI pipeline result shape) and
`src/config-loader.ts` (schedule evaluator).

Modelling conventions:
* JavaScript numbers carrying hours are modelled as rationals; every
  concrete value exercised below is exactly representable as a double, so
  the rational arithmetic coincides with the float arithmetic of the code.
* JavaScript strings are modelled as Lean strings; the character-level
  helpers (lower-casing, substring search, splitting, trimming) are defined
  structurally over the character list so that they compute by kernel
  reduction.  Lower-casing is the ASCII mapping, which agrees with
  `String.prototype.toLowerCase` on the ASCII keywords the categorizer
  tests.
* Effectful inputs (GitHub queries, local git logs, directory resolution,
  the external AI text service) are modelled as explicit oracle functions;
  a failing source is the oracle returning the empty list, exactly the
  observable behaviour of the caught-and-logged failures in the code.
-/

namespace InvoiceGen

/-! ### Numeric model

`Math.round` in JavaScript is floor of the argument plus one half (halves
round toward positive infinity).  The pipeline always rounds to the nearest
half hour via `Math.round(x * 2) / 2`. -/

/-- JavaScript `Math.round`: floor of the argument plus one half. -/
def jsRound (q : ℚ) : ℤ := ⌊q + 1/2⌋

/-- Rounding to the nearest 0.5, as `Math.round(x * 2) / 2` in the source. -/
def roundHalf (q : ℚ) : ℚ := (jsRound (q * 2) : ℚ) / 2

/-! ### Data model (`src/invoice-generator.ts`, lines 29-50)

Commit records carry `message`, `date` and `repo`; the date is only used to
select commits into a week's window, which the oracle functions below
already perform, so it is omitted from the record. -/

/-- A commit record as consumed by the categorizer. -/
structure Commit where
  message : String
  repo : String
deriving DecidableEq

/-- TaskSummary of the source: a billing line. -/
structure TaskSummary where
  description : String
  hours : ℚ
  commits : ℕ
deriving DecidableEq

/-- WeeklyWork of the source.  The `weekStart` and `weekEnd` date fields
only feed the preformatted `dateRange` label, which is carried directly. -/
structure WeeklyWork where
  dateRange : String
  totalHours : ℚ
  tasks : List TaskSummary
deriving DecidableEq

/-- InvoiceData of the source, with the formatted date labels carried as
the strings the formatting produces. -/
structure InvoiceData where
  customer : String
  startDate : String
  endDate : String
  text : String
  totalHours : ℚ
  weeks : List WeeklyWork
deriving DecidableEq

/-! ### String helpers

Structural models of the JavaScript string operations used by the core. -/

/-- Whether the keyword list is a prefix of the character list. -/
def startsWithChars : List Char → List Char → Bool
  | _, [] => true
  | [], _ :: _ => false
  | c :: cs, k :: ks => c = k && startsWithChars cs ks

/-- Whether the keyword occurs contiguously inside the character list. -/
def containsChars (kw : List Char) : List Char → Bool
  | [] => startsWithChars [] kw
  | c :: cs => startsWithChars (c :: cs) kw || containsChars kw cs

/-- JavaScript `String.prototype.includes`. -/
def includes (s kw : String) : Bool := containsChars kw.data s.data

/-- JavaScript `String.prototype.toLowerCase` (ASCII range). -/
def toLowerCase (s : String) : String := ⟨s.data.map Char.toLower⟩

/-! ### Categorizer (`getCommitCategory`, `src/invoice-generator.ts` 430-484) -/

/-- Keyword classification of one commit message: lower-case the message,
then test the fixed rule sequence, first match winning. -/
def getCommitCategory (message : String) : String :=
  let msg := toLowerCase message
  if includes msg "fix" || includes msg "bug" || includes msg "error" then
    "Bug fixes and error resolution"
  else if includes msg "feat" || includes msg "add" || includes msg "implement" then
    "New feature development"
  else if includes msg "refactor" || includes msg "clean" || includes msg "optimize" then
    "Code refactoring and optimization"
  else if includes msg "test" || includes msg "spec" then
    "Testing and quality assurance"
  else if includes msg "doc" || includes msg "readme" then
    "Documentation updates"
  else if includes msg "ui" || includes msg "style" || includes msg "css" then
    "UI/UX improvements"
  else if includes msg "data" || includes msg "database" || includes msg "migration" then
    "Database and data management"
  else if includes msg "api" || includes msg "endpoint" || includes msg "route" then
    "API development and updates"
  else if includes msg "deploy" || includes msg "build" || includes msg "ci" then
    "Deployment and DevOps"
  else if includes msg "fax" then
    "Fax system development"
  else if includes msg "dashboard" || includes msg "insight" || includes msg "report" then
    "Dashboard and reporting features"
  else if includes msg "transfer" || includes msg "patient" then
    "Patient transfer workflow"
  else
    "General development and maintenance"

/-! ### Grouping (`categorizeCommits`, `src/invoice-generator.ts` 398-428)

The source accumulates a `Map` keyed by category; a JavaScript `Map`
iterates in key-insertion order, so it is modelled as an association list
extended at the tail. -/

/-- Per-category accumulator entry of the source's `Map`. -/
structure CatData where
  commits : ℕ
  messages : List String
deriving DecidableEq

/-- One step of the grouping loop: create the entry on first sight, then
increment its commit count and push the message. -/
def bumpCategory (cat message : String) (acc : List (String × CatData)) :
    List (String × CatData) :=
  if acc.any (fun p => p.1 = cat) then
    acc.map (fun p =>
      if p.1 = cat then (p.1, ⟨p.2.commits + 1, p.2.messages ++ [message]⟩) else p)
  else
    acc ++ [(cat, ⟨1, [message]⟩)]

/-- The grouping loop over the commit list. -/
def categoryGroupsAux (acc : List (String × CatData)) : List Commit → List (String × CatData)
  | [] => acc
  | c :: cs => categoryGroupsAux (bumpCategory (getCommitCategory c.message) c.message acc) cs

/-- The `categories` map after the whole loop, in insertion order. -/
def categoryGroups (commits : List Commit) : List (String × CatData) :=
  categoryGroupsAux [] commits

/-- Sort order of `tasks.sort((a, b) => b.commits - a.commits)`: descending
by commit count. -/
def taskOrder (a b : TaskSummary) : Prop := b.commits ≤ a.commits

instance : DecidableRel taskOrder := fun a b => inferInstanceAs (Decidable (b.commits ≤ a.commits))

instance : IsTotal TaskSummary taskOrder := ⟨fun a b => le_total b.commits a.commits⟩

instance : IsTrans TaskSummary taskOrder := ⟨fun _ _ _ h h2 => le_trans h2 h⟩

/-- The categorizer: group by category in first-seen order, then sort
descending by commit count.  ECMAScript requires `Array.prototype.sort` to
be stable, and for a consistent comparator the stable sorted reordering is
unique, so the call is modelled by stable insertion sort. -/
def categorizeCommits (commits : List Commit) : List TaskSummary :=
  List.insertionSort taskOrder
    ((categoryGroups commits).map (fun p => TaskSummary.mk p.1 0 p.2.commits))

/-! ### Hour allocator (`distributeHours`, `src/invoice-generator.ts` 486-532) -/

/-- The allocation loop: every task except the last takes its proportional
share rounded to the nearest 0.5 and clamped to the remaining budget; the
last task absorbs all remaining hours. -/
def distributeLoop (totalHours : ℚ) (totalCommits : ℕ) :
    List TaskSummary → ℚ → List TaskSummary
  | [], _ => []
  | [task], remainingHours => [{ task with hours := remainingHours }]
  | task :: next :: rest, remainingHours =>
    let hours := roundHalf (totalHours * ((task.commits : ℚ) / (totalCommits : ℚ)))
    let adjustedHours := min hours remainingHours
    { task with hours := adjustedHours } ::
      distributeLoop totalHours totalCommits (next :: rest) (remainingHours - adjustedHours)

/-- Hour allocator: synthesize a task when there are none, divide evenly
when no commits exist, otherwise run the proportional loop and drop
zero-hour tasks. -/
def distributeHours (tasks : List TaskSummary) (totalHours : ℚ) : List TaskSummary :=
  if tasks = [] then
    [⟨"Development and maintenance", totalHours, 0⟩]
  else
    let totalCommits := (tasks.map (fun t => t.commits)).sum
    if totalCommits = 0 then
      tasks.map (fun task => { task with hours := roundHalf (totalHours / (tasks.length : ℚ)) })
    else
      (distributeLoop totalHours totalCommits tasks totalHours).filter (fun task => 0 < task.hours)

/-! ### Derived views of the grouping used in the statements below -/

/-- Category keys of the grouping map, in insertion order. -/
def keysOf (l : List (String × CatData)) : List String := l.map (fun p => p.1)

/-- Total commit count recorded for a category inside the grouping map. -/
def groupCount (l : List (String × CatData)) (cat : String) : ℕ :=
  ((l.filter (fun p => p.1 = cat)).map (fun p => p.2.commits)).sum

/-- The category labels in order of first appearance in the commit list. -/
def firstSeenLabels (commits : List Commit) : List String :=
  commits.foldl (fun acc c =>
    if getCommitCategory c.message ∈ acc then acc else acc ++ [getCommitCategory c.message]) []

/-! ### The specified rule table (spec section 4.2)

The spec presents the categorizer as an explicit ordered list of
keyword-set and label pairs evaluated first-match-wins; the table below is
that list, and the refinement theorem for C4 compares the sequential
conditionals of the code against it. -/

/-- The ordered rule table of spec section 4.2 (rules 1-12; rule 13 is the
fallback label). -/
def categoryRules : List (List String × String) :=
  [(["fix", "bug", "error"], "Bug fixes and error resolution"),
   (["feat", "add", "implement"], "New feature development"),
   (["refactor", "clean", "optimize"], "Code refactoring and optimization"),
   (["test", "spec"], "Testing and quality assurance"),
   (["doc", "readme"], "Documentation updates"),
   (["ui", "style", "css"], "UI/UX improvements"),
   (["data", "database", "migration"], "Database and data management"),
   (["api", "endpoint", "route"], "API development and updates"),
   (["deploy", "build", "ci"], "Deployment and DevOps"),
   (["fax"], "Fax system development"),
   (["dashboard", "insight", "report"], "Dashboard and reporting features"),
   (["transfer", "patient"], "Patient transfer workflow")]

/-- First-match-wins evaluation of a rule table on an already lower-cased
message, defaulting to the fallback label of rule 13. -/
def firstMatchLabel (msg : String) : List (List String × String) → String
  | [] => "General development and maintenance"
  | (kws, label) :: rest =>
    if kws.any (fun kw => includes msg kw) then label else firstMatchLabel msg rest

/-- The categorizer as the spec words it: lower-case, then first matching
rule of the fixed table. -/
def getCommitCategorySpec (message : String) : String :=
  firstMatchLabel (toLowerCase message) categoryRules

/-! ### AI line-item parsing (`parseAILineItems`, `src/invoice-generator.ts` 534-557)

The source matches each line against the regular expression
`/\*{0,2}(\d+(?:\.\d+)?)hr\*{0,2}\s*-\s*(.+)$/i` and collects hours and
description from the first (leftmost) match.  The matcher below is the
backtracking-free equivalent for this particular pattern: each greedy
quantifier is followed by a literal that its own character class cannot
produce, so greedy consumption never needs to be undone, except for the
final `\s*(.+)$` pair, whose net effect is that the remainder after the
dash must be nonempty and the captured description is trimmed. -/

/-- JavaScript whitespace class (restricted to the ASCII characters that
can occur in the split lines, which contain no newline). -/
def isJsSpace (c : Char) : Bool :=
  c = ' ' || c = '\t' || c = '\n' || c = '\r' || c = '\x0b' || c = '\x0c'

/-- JavaScript `String.prototype.trim` over characters. -/
def jsTrim (l : List Char) : List Char :=
  ((l.dropWhile isJsSpace).reverse.dropWhile isJsSpace).reverse

/-- JavaScript `text.split('\n')` over characters. -/
def splitOnNl : List Char → List (List Char)
  | [] => [[]]
  | '\n' :: rest => [] :: splitOnNl rest
  | c :: rest =>
    match splitOnNl rest with
    | line :: lines => (c :: line) :: lines
    | [] => [[c]]

/-- Greedy `\*{0,2}`: consume up to two leading asterisks. -/
def dropStars2 : List Char → List Char
  | '*' :: '*' :: rest => rest
  | '*' :: rest => rest
  | rest => rest

/-- Numeric value of a digit run. -/
def natOfDigits (ds : List Char) : ℕ :=
  ds.foldl (fun n c => 10 * n + (c.toNat - '0'.toNat)) 0

/-- JavaScript `parseFloat` on the digit groups captured by the pattern. -/
def floatOfDigits (intDigits fracDigits : List Char) : ℚ :=
  (natOfDigits intDigits : ℚ) + (natOfDigits fracDigits : ℚ) / (10 ^ fracDigits.length : ℚ)

/-- Attempt to match the line-item pattern starting at this position. -/
def lineItemMatchAt (l : List Char) : Option (ℚ × String) :=
  let l1 := dropStars2 l
  let intDigits := l1.takeWhile (fun c => c.isDigit)
  let l2 := l1.dropWhile (fun c => c.isDigit)
  if intDigits = [] then none
  else
    let fracPair : List Char × List Char :=
      match l2 with
      | '.' :: rest =>
        if (rest.takeWhile (fun c => c.isDigit)) = [] then (([] : List Char), l2)
        else (rest.takeWhile (fun c => c.isDigit), rest.dropWhile (fun c => c.isDigit))
      | _ => (([] : List Char), l2)
    match fracPair.2 with
    | h :: r :: l4 =>
      if h.toLower = 'h' && r.toLower = 'r' then
        let l6 := (dropStars2 l4).dropWhile isJsSpace
        match l6 with
        | '-' :: l7 =>
          if l7 = [] then none
          else some (floatOfDigits intDigits fracPair.1, String.mk (jsTrim l7))
        | _ => none
      else none
    | _ => none

/-- Leftmost match of the line-item pattern in a line. -/
def lineItemScan : List Char → Option (ℚ × String)
  | [] => none
  | c :: cs =>
    match lineItemMatchAt (c :: cs) with
    | some r => some r
    | none => lineItemScan cs

/-- Parse the AI stage's free text into task summaries: one per line
matching the pattern, with zero commit count. -/
def parseAILineItems (lineItemsText : String) : List TaskSummary :=
  (splitOnNl lineItemsText.data).filterMap (fun line =>
    match lineItemScan line with
    | some r => some ⟨r.2, r.1, 0⟩
    | none => none)

/-! ### Invoice text formatting (`formatInvoice`, `src/invoice-generator.ts` 559-578) -/

/-- JavaScript template-string rendering of a number, exact on the integer
and half-integer values the pipeline produces (the shortest-decimal float
rendering coincides there). -/
def ratToString (q : ℚ) : String :=
  if q.den = 1 then toString q.num
  else if q.den = 2 then
    (if q < 0 then "-" else "") ++ toString (q.num.natAbs / 2) ++ ".5"
  else toString q.num ++ "/" ++ toString q.den

/-- Hour rendering of the source: whole hours without decimals, otherwise
`toFixed(1)`, which on the half-integer values produced prints one digit. -/
def hoursToString (q : ℚ) : String :=
  if q.den = 1 then toString q.num else ratToString q

/-- Formatted invoice text: per week a header line, one line per task with
positive hours, and a blank separator line, trimmed at the ends. -/
def formatInvoice (weeks : List WeeklyWork) : String :=
  let lines := weeks.flatMap (fun week =>
    (week.dateRange ++ " ----- " ++ ratToString week.totalHours ++ "hrs") ::
      ((week.tasks.filter (fun task => 0 < task.hours)).map
        (fun task => hoursToString task.hours ++ "hr - " ++ task.description) ++ [""]))
  String.mk (jsTrim (String.intercalate "\n" lines).data)

/-! ### Source resolution (`analyzeWeekWithCommits`, `src/invoice-generator.ts` 243-349)

The effectful per-week queries are oracle functions: `remoteFetch` is the
accumulated result of `getGitHubCommitsForRepo` for one repo over the
week's window (a repo whose query fails contributes the empty list, since
that function catches its errors and returns `[]`); `resolveDirs` is
`resolveRepoPaths`; `customerDirs` is `getProjectDirectories`; `localLog`
is the `git log` read for one directory (a failing read contributes
nothing, matching the caught exception). -/

/-- Oracles for one week's source queries. -/
structure WeekFetch where
  dateRange : String
  remoteFetch : String → List Commit
  resolveDirs : List String → List String
  customerDirs : String → List String
  localLog : String → List Commit

/-- Step 1: accumulate commits from all configured GitHub repos. -/
def remoteCommits (wf : WeekFetch) (githubRepos : Option (List String)) : List Commit :=
  match githubRepos with
  | some repos => if 0 < repos.length then repos.flatMap wf.remoteFetch else []
  | none => []

/-- The local directories used by the fallback: explicit repo paths when
configured and nonempty, otherwise the customer-based search. -/
def fallbackProjectDirs (wf : WeekFetch) (repoPaths : Option (List String))
    (customer : Option String) : List String :=
  match repoPaths with
  | some paths =>
    if 0 < paths.length then wf.resolveDirs paths
    else
      match customer with
      | some c => wf.customerDirs c
      | none => []
  | none =>
    match customer with
    | some c => wf.customerDirs c
    | none => []

/-- One week's commit gathering: remote accumulation first; only when it
produced zero records, append the commits of the resolved local
directories to the (then empty) accumulator. -/
def gatherWeekCommits (wf : WeekFetch) (githubRepos repoPaths : Option (List String))
    (customer : Option String) : List Commit :=
  let remote := remoteCommits wf githubRepos
  if remote.length = 0 then
    remote ++ (fallbackProjectDirs wf repoPaths customer).flatMap wf.localLog
  else remote

/-- Per-week analysis: gather, categorize, allocate the configured hours. -/
def analyzeWeekWithCommits (wf : WeekFetch) (hoursPerWeek : ℚ)
    (githubRepos repoPaths : Option (List String)) (customer : Option String) :
    WeeklyWork × List Commit :=
  let allCommits := gatherWeekCommits wf githubRepos repoPaths customer
  let tasks := categorizeCommits allCommits
  ({ dateRange := wf.dateRange, totalHours := hoursPerWeek,
     tasks := distributeHours tasks hoursPerWeek }, allCommits)

/-! ### AI pipeline result (`src/ai-analyzer.ts`)

`runClaudeCLI` is an external text service; its two invocations are the
oracles `stage1` and `stage2` (an `Except.error` is the thrown CLI error).
The prompt contents do not influence which branch runs, so they are not
carried. -/

/-- Toggle for one AI stage. -/
structure AIStageConfig where
  enabled : Bool

/-- The `ai` section of a configuration. -/
structure AIConfig where
  enabled : Bool
  codeAnalysis : AIStageConfig
  lineItemGeneration : AIStageConfig

/-- Result record of `runAIAnalysis`; `none` models an absent field. -/
structure AIAnalysisResult where
  codeAnalysis : Option String
  lineItems : Option String
deriving DecidableEq

/-- Stage 1 wrapper: disabled stages return the empty string, and a thrown
CLI error is caught and also yields the empty string. -/
def analyzeCodeChanges (ai : AIConfig) (stage1 : Except String String) : String :=
  if ai.enabled && ai.codeAnalysis.enabled then
    match stage1 with
    | .ok s => s
    | .error _ => ""
  else ""

/-- Stage 2 wrapper, with the same error convention. -/
def generateLineItems (ai : AIConfig) (stage2 : Except String String) : String :=
  if ai.enabled && ai.lineItemGeneration.enabled then
    match stage2 with
    | .ok s => s
    | .error _ => ""
  else ""

/-- The full pipeline: stage 1 runs when enabled; stage 2 runs only when
enabled and stage 1 produced a truthy (nonempty) analysis. -/
def runAIAnalysis (ai : AIConfig) (stage1 stage2 : Except String String) : AIAnalysisResult :=
  if ai.enabled then
    let codeAnalysis :=
      if ai.codeAnalysis.enabled then some (analyzeCodeChanges ai stage1) else none
    { codeAnalysis := codeAnalysis
      lineItems :=
        if ai.lineItemGeneration.enabled ∧ codeAnalysis.getD "" ≠ "" then
          some (generateLineItems ai stage2)
        else none }
  else { codeAnalysis := none, lineItems := none }

/-! ### Invoice assembly (`generateInvoice`, `src/invoice-generator.ts` 52-142)

The date-window computation only determines how many weeks are iterated
and their labels, which the `weekFetches` list carries; the AI call is the
`aiOutcome` oracle (`Except.error` models the caught exception of the
`try` block around `runAIAnalysis`).  The declared return type of the
source is `InvoiceData | null`, modelled by `Option`. -/

/-- The AI override of `generateInvoice` lines 115-121: redistribute the
parsed AI tasks into each week proportionally to the week's share of the
grand total, round to the nearest 0.5, drop zero-hour results, replacing
the week's tasks. -/
def overrideWeeks (weeks : List WeeklyWork) (grandTotal : ℚ)
    (aiTasks : List TaskSummary) : List WeeklyWork :=
  weeks.map (fun week =>
    { week with
      tasks := (aiTasks.map (fun task =>
          { task with hours := roundHalf (task.hours * (week.totalHours / grandTotal)) })).filter
        (fun task => 0 < task.hours) })

/-- The invoice assembler. -/
def generateInvoice (weekFetches : List WeekFetch) (githubRepos repoPaths : Option (List String))
    (customer : String) (hoursPerWeek : ℚ) (startLabel endLabel : String)
    (aiEnabled : Bool) (aiOutcome : Except Unit AIAnalysisResult) : Option InvoiceData :=
  let weekResults := weekFetches.map
    (fun wf => analyzeWeekWithCommits wf hoursPerWeek githubRepos repoPaths (some customer))
  let weeklyWork := weekResults.map (fun r => r.1)
  let allCommits := weekResults.flatMap (fun r => r.2)
  let totalHours := (weeklyWork.map (fun w => w.totalHours)).sum
  let finalWeeks :=
    if aiEnabled ∧ 0 < allCommits.length then
      match aiOutcome with
      | .error _ => weeklyWork
      | .ok aiResult =>
        match aiResult.lineItems with
        | none => weeklyWork
        | some lineItems =>
          if lineItems = "" then weeklyWork
          else overrideWeeks weeklyWork totalHours (parseAILineItems lineItems)
    else weeklyWork
  some
    { customer := customer
      startDate := startLabel
      endDate := endLabel
      text := formatInvoice finalWeeks
      totalHours := totalHours
      weeks := finalWeeks }

/-- The heuristic weekly work of a run, for comparison: what the weeks are
before any AI override. -/
def heuristicWeeks (weekFetches : List WeekFetch) (githubRepos repoPaths : Option (List String))
    (customer : String) (hoursPerWeek : ℚ) : List WeeklyWork :=
  weekFetches.map
    (fun wf => (analyzeWeekWithCommits wf hoursPerWeek githubRepos repoPaths (some customer)).1)

/-! ### Schedule evaluator (`shouldRunToday`, `src/config-loader.ts` 50-93)

Dates are civil calendar dates; the process is modelled in UTC, where
`new Date("yyyy-mm-dd")` is that day's midnight and `getDay` is the
weekday from the epoch day count (the epoch day, 1970-01-01, was a
Thursday, weekday 4).  A thrown configuration error is `Except.error`. -/

/-- Days from the civil epoch 1970-01-01 (standard civil-from-days
algorithm, exact for all calendar dates). -/
def daysFromCivil (y m d : ℤ) : ℤ :=
  let yAdj := if m ≤ 2 then y - 1 else y
  let era := Int.fdiv yAdj 400
  let yoe := yAdj - era * 400
  let mp := Int.emod (m + 9) 12
  let doy := Int.fdiv (153 * mp + 2) 5 + d - 1
  let doe := yoe * 365 + Int.fdiv yoe 4 - Int.fdiv yoe 100 + doy
  era * 146097 + doe - 719468

/-- A JavaScript `Date` at UTC midnight of a civil date. -/
structure JSDate where
  year : ℤ
  month : ℤ
  day : ℤ
deriving DecidableEq

/-- JavaScript `getTime()`: milliseconds since the epoch. -/
def epochMs (dt : JSDate) : ℤ := 86400000 * daysFromCivil dt.year dt.month dt.day

/-- JavaScript `getDay()`: 0 for Sunday through 6 for Saturday. -/
def getDay (dt : JSDate) : ℤ := Int.emod (daysFromCivil dt.year dt.month dt.day + 4) 7

/-- Gregorian leap-year rule. -/
def isLeapYear (y : ℤ) : Bool :=
  (Int.emod y 4 = 0 && !(Int.emod y 100 = 0)) || Int.emod y 400 = 0

/-- Days in a civil month. -/
def daysInMonth (y m : ℤ) : ℤ :=
  if m = 2 then (if isLeapYear y then 29 else 28)
  else if m = 4 ∨ m = 6 ∨ m = 9 ∨ m = 11 then 30
  else 31

/-- Schedule descriptor types of the configuration. -/
inductive ScheduleType
  | biWeeklySunday
  | weeklySunday
  | monthlyFirst
  | monthlyLast
  | custom
deriving DecidableEq

/-- Schedule descriptor; a missing `startDate` is `none`. -/
structure Schedule where
  type : ScheduleType
  startDate : Option JSDate
deriving DecidableEq

/-- Milliseconds of one week, the divisor of the bi-weekly cycle check. -/
def msPerWeek : ℤ := 7 * 24 * 60 * 60 * 1000

/-- The schedule evaluator.  For `bi-weekly-sunday` the Sunday test runs
first and returns `false` on non-Sundays before the `startDate` check; a
missing `startDate` then throws, as does the unimplemented `custom` type.
`monthly-last` tests whether tomorrow normalizes into a different month,
which for a civil date means the day is the month's last.  The JavaScript
`%` on the week count is truncated remainder, `Int.tmod`. -/
def shouldRunToday (schedule : Schedule) (configId : String) (today : JSDate) :
    Except String Bool :=
  match schedule.type with
  | .biWeeklySunday =>
    if getDay today ≠ 0 then .ok false
    else
      match schedule.startDate with
      | none => .error ("bi-weekly-sunday schedule requires a startDate for config " ++ configId)
      | some startDate =>
        .ok (Int.tmod (Int.fdiv (epochMs today - epochMs startDate) msPerWeek) 2 = 0)
  | .weeklySunday => .ok (getDay today = 0)
  | .monthlyFirst => .ok (today.day = 1)
  | .monthlyLast => .ok (daysInMonth today.year today.month < today.day + 1)
  | .custom => .error "Custom cron schedules not yet implemented"

/-! ### Allocator lemmas -/

theorem jsRound_nonneg {q : ℚ} (h : 0 ≤ q) : 0 ≤ jsRound q :=
  Int.le_floor.mpr (by push_cast; linarith)

theorem roundHalf_nonneg {q : ℚ} (h : 0 ≤ q) : 0 ≤ roundHalf q := by
  have h2 : (0 : ℤ) ≤ jsRound (q * 2) := jsRound_nonneg (by linarith)
  have h3 : (0 : ℚ) ≤ (jsRound (q * 2) : ℚ) := by exact_mod_cast h2
  exact div_nonneg h3 (by norm_num)

/-- The allocation loop distributes exactly the remaining budget: the head
contributions and the final absorption telescope. -/
theorem distributeLoop_sum (totalHours : ℚ) (totalCommits : ℕ) :
    ∀ (ts : List TaskSummary) (rem : ℚ), ts ≠ [] →
      ((distributeLoop totalHours totalCommits ts rem).map (fun t => t.hours)).sum = rem
  | [], _, h => absurd rfl h
  | [_], _, _ => by simp [distributeLoop]
  | t :: u :: rest, rem, _ => by
    have ih := distributeLoop_sum totalHours totalCommits (u :: rest)
      (rem - min (roundHalf (totalHours * ((t.commits : ℚ) / (totalCommits : ℚ)))) rem)
      (by simp)
    simp only [distributeLoop, List.map_cons, List.sum_cons, ih]
    ring

/-- With a nonnegative budget every allocated figure is nonnegative. -/
theorem distributeLoop_hours_nonneg (totalHours : ℚ) (totalCommits : ℕ)
    (hth : 0 ≤ totalHours) :
    ∀ (ts : List TaskSummary) (rem : ℚ), 0 ≤ rem →
      ∀ x ∈ distributeLoop totalHours totalCommits ts rem, 0 ≤ x.hours
  | [], _, _ => by simp [distributeLoop]
  | [t], rem, hrem => by simp [distributeLoop]; exact hrem
  | t :: u :: rest, rem, hrem => by
    have hround : 0 ≤ roundHalf (totalHours * ((t.commits : ℚ) / (totalCommits : ℚ))) :=
      roundHalf_nonneg (mul_nonneg hth (by positivity))
    have hadj : 0 ≤ min (roundHalf (totalHours * ((t.commits : ℚ) / (totalCommits : ℚ)))) rem :=
      le_min hround hrem
    have hrem2 : 0 ≤ rem - min (roundHalf (totalHours * ((t.commits : ℚ) / (totalCommits : ℚ)))) rem :=
      sub_nonneg.mpr (min_le_right _ _)
    have ih := distributeLoop_hours_nonneg totalHours totalCommits hth (u :: rest) _ hrem2
    intro x hx
    simp only [distributeLoop, List.mem_cons] at hx
    rcases hx with rfl | hx
    · exact hadj
    · exact ih x (by simpa using hx)

/-- Dropping the zero-hour tasks does not change the sum of hours when all
hours are nonnegative. -/
theorem sum_hours_filter_pos (l : List TaskSummary) (h : ∀ x ∈ l, 0 ≤ x.hours) :
    ((l.filter (fun t => 0 < t.hours)).map (fun t => t.hours)).sum
      = (l.map (fun t => t.hours)).sum := by
  induction l with
  | nil => simp
  | cons x xs ih =>
    have hx := h x (by simp)
    have hxs : ∀ y ∈ xs, 0 ≤ y.hours := fun y hy => h y (by simp [hy])
    by_cases hp : 0 < x.hours
    · simp [List.filter_cons, hp, ih hxs]
    · have hx0 : x.hours = 0 := le_antisymm (not_lt.mp hp) hx
      simp [List.filter_cons, hp, ih hxs, hx0]

/-- C1: with a nonempty task list, a positive total commit count and a
nonnegative hour budget, the allocator's proportional loop sums exactly to
the budget, the allocator output is that loop followed by dropping
zero-hour tasks, and the drop does not change the sum, which therefore
equals the budget exactly. -/
theorem distributeHours_sum_exact (tasks : List TaskSummary) (totalHours : ℚ)
    (hne : tasks ≠ []) (hpos : 0 < (tasks.map (fun t => t.commits)).sum)
    (hth : 0 ≤ totalHours) :
    ((distributeHours tasks totalHours).map (fun t => t.hours)).sum = totalHours ∧
    ((distributeLoop totalHours ((tasks.map (fun t => t.commits)).sum) tasks totalHours).map
        (fun t => t.hours)).sum = totalHours ∧
    distributeHours tasks totalHours =
      (distributeLoop totalHours ((tasks.map (fun t => t.commits)).sum) tasks totalHours).filter
        (fun task => 0 < task.hours) := by
  have hc : (tasks.map (fun t => t.commits)).sum ≠ 0 := Nat.pos_iff_ne_zero.mp hpos
  have hloop := distributeLoop_sum totalHours ((tasks.map (fun t => t.commits)).sum)
    tasks totalHours hne
  have hnn := distributeLoop_hours_nonneg totalHours ((tasks.map (fun t => t.commits)).sum)
    hth tasks totalHours hth
  have hunfold : distributeHours tasks totalHours =
      (distributeLoop totalHours ((tasks.map (fun t => t.commits)).sum) tasks totalHours).filter
        (fun task => 0 < task.hours) := by
    simp [distributeHours, hne, hc]
  refine ⟨?_, hloop, hunfold⟩
  rw [hunfold, sum_hours_filter_pos _ hnn, hloop]

/-- Witness for C1: the spec's own scenario, seven bug-fix commits and
three feature commits over a 30 hour budget. -/
theorem distributeHours_sum_exact_witness :
    (([⟨"Bug fixes and error resolution", 0, 7⟩,
       ⟨"New feature development", 0, 3⟩] : List TaskSummary) ≠ [] ∧
      0 < (([⟨"Bug fixes and error resolution", 0, 7⟩,
             ⟨"New feature development", 0, 3⟩] : List TaskSummary).map
              (fun t => t.commits)).sum ∧
      (0 : ℚ) ≤ 30) ∧
    ((distributeHours [⟨"Bug fixes and error resolution", 0, 7⟩,
        ⟨"New feature development", 0, 3⟩] 30).map (fun t => t.hours)).sum = 30 :=
  ⟨⟨by simp, by simp, by norm_num⟩,
    (distributeHours_sum_exact
      [⟨"Bug fixes and error resolution", 0, 7⟩, ⟨"New feature development", 0, 3⟩]
      30 (by simp) (by simp) (by norm_num)).1⟩

/-- C9: a week with zero commits produces the empty task list, and the
allocator then synthesizes the single task carrying the full budget. -/
theorem distributeHours_zero_commits (totalHours : ℚ) :
    distributeHours (categorizeCommits []) totalHours =
      [⟨"Development and maintenance", totalHours, 0⟩] := by
  simp [categorizeCommits, categoryGroups, categoryGroupsAux, List.insertionSort, distributeHours]

/-! ### Grouping lemmas -/

theorem any_key_iff (acc : List (String × CatData)) (cat : String) :
    acc.any (fun p => p.1 = cat) = true ↔ cat ∈ keysOf acc := by
  rw [List.any_eq_true]
  simp only [keysOf, List.mem_map, decide_eq_true_eq]

theorem map_update_id (cat m : String) (acc : List (String × CatData))
    (h : cat ∉ keysOf acc) :
    acc.map (fun p =>
      if p.1 = cat then (p.1, CatData.mk (p.2.commits + 1) (p.2.messages ++ [m])) else p) = acc := by
  have hcong : ∀ p ∈ acc,
      (if p.1 = cat then (p.1, CatData.mk (p.2.commits + 1) (p.2.messages ++ [m])) else p) =
        (fun a => a) p := by
    intro p hp
    have hne : p.1 ≠ cat := by
      intro he
      apply h
      simp only [keysOf, List.mem_map]
      exact ⟨p, hp, he⟩
    simp [hne]
  rw [List.map_congr_left hcong]
  exact List.map_id' acc

theorem bumpCategory_keys (cat m : String) (acc : List (String × CatData)) :
    keysOf (bumpCategory cat m acc) =
      if cat ∈ keysOf acc then keysOf acc else keysOf acc ++ [cat] := by
  by_cases h : cat ∈ keysOf acc
  · have ha : acc.any (fun p => p.1 = cat) = true := (any_key_iff acc cat).mpr h
    rw [if_pos h]
    simp only [bumpCategory, ha, if_true, keysOf, List.map_map]
    apply List.map_congr_left
    intro p _
    by_cases hp : p.1 = cat <;> simp [hp]
  · have ha : ¬ acc.any (fun p => p.1 = cat) = true := fun hc => h ((any_key_iff acc cat).mp hc)
    rw [if_neg h]
    simp [bumpCategory, ha, keysOf]

theorem bumpCategory_nodup (cat m : String) (acc : List (String × CatData))
    (hnd : (keysOf acc).Nodup) : (keysOf (bumpCategory cat m acc)).Nodup := by
  rw [bumpCategory_keys]
  by_cases h : cat ∈ keysOf acc
  · simpa [h] using hnd
  · simp [h, List.nodup_append, hnd]

theorem sum_map_update (cat m : String) :
    ∀ acc : List (String × CatData), (keysOf acc).Nodup → cat ∈ keysOf acc →
      ((acc.map (fun p =>
          if p.1 = cat then (p.1, CatData.mk (p.2.commits + 1) (p.2.messages ++ [m])) else p)).map
            (fun p => p.2.commits)).sum
        = (acc.map (fun p => p.2.commits)).sum + 1
  | [], _, hm => by simp [keysOf] at hm
  | p :: ps, hnd, hm => by
    have hnd0 : p.1 ∉ keysOf ps ∧ (keysOf ps).Nodup := by
      simpa [keysOf] using hnd
    by_cases hp : p.1 = cat
    · have hnotin : cat ∉ keysOf ps := hp ▸ hnd0.1
      have hupd : (if p.1 = cat then (p.1, CatData.mk (p.2.commits + 1) (p.2.messages ++ [m]))
          else p) = (p.1, CatData.mk (p.2.commits + 1) (p.2.messages ++ [m])) := by
        simp [hp]
      rw [List.map_cons, hupd, map_update_id cat m ps hnotin]
      simp only [List.map_cons, List.sum_cons]
      omega
    · have hm' : cat ∈ keysOf ps := by
        rcases (by simpa [keysOf] using hm : cat = p.1 ∨ cat ∈ keysOf ps) with h | h
        · exact absurd h.symm hp
        · exact h
      have ih := sum_map_update cat m ps hnd0.2 hm'
      have hupd : (if p.1 = cat then (p.1, CatData.mk (p.2.commits + 1) (p.2.messages ++ [m]))
          else p) = p := by
        simp [hp]
      rw [List.map_cons, hupd]
      simp only [List.map_cons, List.sum_cons, ih]
      omega

theorem bumpCategory_sum (cat m : String) (acc : List (String × CatData))
    (hnd : (keysOf acc).Nodup) :
    ((bumpCategory cat m acc).map (fun p => p.2.commits)).sum
      = (acc.map (fun p => p.2.commits)).sum + 1 := by
  by_cases h : cat ∈ keysOf acc
  · have ha : acc.any (fun p => p.1 = cat) = true := (any_key_iff acc cat).mpr h
    simp only [bumpCategory, ha, if_true]
    exact sum_map_update cat m acc hnd h
  · have ha : ¬ acc.any (fun p => p.1 = cat) = true := fun hc => h ((any_key_iff acc cat).mp hc)
    simp [bumpCategory, ha]

theorem categoryGroupsAux_nodup : ∀ (cs : List Commit) (acc : List (String × CatData)),
    (keysOf acc).Nodup → (keysOf (categoryGroupsAux acc cs)).Nodup
  | [], _, h => h
  | c :: cs, acc, h =>
    categoryGroupsAux_nodup cs _ (bumpCategory_nodup (getCommitCategory c.message) c.message acc h)

theorem categoryGroupsAux_sum : ∀ (cs : List Commit) (acc : List (String × CatData)),
    (keysOf acc).Nodup →
      ((categoryGroupsAux acc cs).map (fun p => p.2.commits)).sum
        = (acc.map (fun p => p.2.commits)).sum + cs.length
  | [], acc, _ => by simp [categoryGroupsAux]
  | c :: cs, acc, h => by
    have ih := categoryGroupsAux_sum cs (bumpCategory (getCommitCategory c.message) c.message acc)
      (bumpCategory_nodup (getCommitCategory c.message) c.message acc h)
    rw [categoryGroupsAux, ih, bumpCategory_sum (getCommitCategory c.message) c.message acc h]
    simp
    omega

theorem categoryGroupsAux_entries_pos : ∀ (cs : List Commit) (acc : List (String × CatData)),
    (∀ p ∈ acc, 1 ≤ p.2.commits) → ∀ p ∈ categoryGroupsAux acc cs, 1 ≤ p.2.commits
  | [], _, h => h
  | c :: cs, acc, h => by
    apply categoryGroupsAux_entries_pos cs
    intro p hp
    unfold bumpCategory at hp
    by_cases ha : acc.any (fun q => q.1 = getCommitCategory c.message) = true
    · simp only [ha, if_true] at hp
      obtain ⟨q, hq, rfl⟩ := List.mem_map.mp hp
      by_cases hqc : q.1 = getCommitCategory c.message
      · simp [hqc]
      · simpa [hqc] using h q hq
    · simp only [ha, if_false, Bool.false_eq_true, List.mem_append] at hp
      rcases hp with hp | hp
      · exact h p hp
      · simp at hp
        simp [hp]

theorem filter_key_eq_nil (cat : String) (acc : List (String × CatData))
    (h : cat ∉ keysOf acc) : acc.filter (fun p => p.1 = cat) = [] := by
  induction acc with
  | nil => rfl
  | cons p ps ih =>
    have h2 : ¬ (cat = p.1 ∨ cat ∈ keysOf ps) := by simpa [keysOf] using h
    have hp : ¬ p.1 = cat := fun he => h2 (Or.inl he.symm)
    have hps : cat ∉ keysOf ps := fun hm => h2 (Or.inr hm)
    simp [List.filter_cons, hp, ih hps]

theorem filter_key_singleton (cat : String) (d : CatData) :
    ∀ acc : List (String × CatData), (keysOf acc).Nodup → (cat, d) ∈ acc →
      acc.filter (fun p => p.1 = cat) = [(cat, d)]
  | [], _, hm => absurd hm (by simp)
  | p :: ps, hnd, hm => by
    have hnd0 : p.1 ∉ keysOf ps ∧ (keysOf ps).Nodup := by simpa [keysOf] using hnd
    rcases List.mem_cons.mp hm with rfl | hm'
    · simp [List.filter_cons, filter_key_eq_nil cat ps hnd0.1]
    · have hmem : cat ∈ keysOf ps := by
        simp only [keysOf, List.mem_map]
        exact ⟨(cat, d), hm', rfl⟩
      have hp : ¬ p.1 = cat := fun he => hnd0.1 (he ▸ hmem)
      simp [List.filter_cons, hp, filter_key_singleton cat d ps hnd0.2 hm']

theorem groupCount_of_mem (cat : String) (d : CatData) (acc : List (String × CatData))
    (hnd : (keysOf acc).Nodup) (hm : (cat, d) ∈ acc) :
    groupCount acc cat = d.commits := by
  simp [groupCount, filter_key_singleton cat d acc hnd hm]

theorem bumpCategory_groupCount (cat2 m cat : String) (acc : List (String × CatData))
    (hnd : (keysOf acc).Nodup) :
    groupCount (bumpCategory cat2 m acc) cat
      = groupCount acc cat + (if cat2 = cat then 1 else 0) := by
  by_cases h : cat2 ∈ keysOf acc
  · have ha : acc.any (fun p => p.1 = cat2) = true := (any_key_iff acc cat2).mpr h
    simp only [bumpCategory, ha, if_true]
    have hfm : ((acc.map (fun p =>
        if p.1 = cat2 then (p.1, CatData.mk (p.2.commits + 1) (p.2.messages ++ [m])) else p)).filter
          (fun p => p.1 = cat))
        = (acc.filter (fun p => p.1 = cat)).map (fun p =>
            if p.1 = cat2 then (p.1, CatData.mk (p.2.commits + 1) (p.2.messages ++ [m])) else p) := by
      rw [List.filter_map]
      congr 1
      apply List.filter_congr
      intro p _
      by_cases hp : p.1 = cat2 <;> simp [hp]
    by_cases hc : cat2 = cat
    · subst hc
      obtain ⟨q, hq, hqe⟩ : ∃ q ∈ acc, q.1 = cat2 := by
        simpa [keysOf, eq_comm] using h
      obtain ⟨c1, d0⟩ := q
      simp only at hqe
      subst hqe
      have hfil := filter_key_singleton c1 d0 acc hnd hq
      simp [groupCount, hfm, hfil]
    · have hmapeq : (acc.filter (fun p => p.1 = cat)).map (fun p =>
          if p.1 = cat2 then (p.1, CatData.mk (p.2.commits + 1) (p.2.messages ++ [m])) else p)
          = acc.filter (fun p => p.1 = cat) := by
        have hcong : ∀ p ∈ acc.filter (fun p => p.1 = cat),
            (if p.1 = cat2 then (p.1, CatData.mk (p.2.commits + 1) (p.2.messages ++ [m])) else p)
              = (fun a => a) p := by
          intro p hp
          have hpc : p.1 = cat := by simpa using (List.mem_filter.mp hp).2
          have hne : ¬ p.1 = cat2 := by
            rw [hpc]
            exact fun he => hc he.symm
          simp [hne]
        rw [List.map_congr_left hcong]
        exact List.map_id' _
      simp [groupCount, hfm, hmapeq, hc]
  · have ha : ¬ acc.any (fun p => p.1 = cat2) = true := fun hc => h ((any_key_iff acc cat2).mp hc)
    simp only [bumpCategory, ha, if_false, Bool.false_eq_true]
    by_cases hc : cat2 = cat <;>
      simp [groupCount, List.filter_append, List.filter_cons, hc]

theorem categoryGroupsAux_groupCount (cat : String) :
    ∀ (cs : List Commit) (acc : List (String × CatData)), (keysOf acc).Nodup →
      groupCount (categoryGroupsAux acc cs) cat
        = groupCount acc cat + cs.countP (fun c => getCommitCategory c.message = cat)
  | [], acc, _ => by simp [categoryGroupsAux]
  | c :: cs, acc, h => by
    have ih := categoryGroupsAux_groupCount cat cs
      (bumpCategory (getCommitCategory c.message) c.message acc)
      (bumpCategory_nodup (getCommitCategory c.message) c.message acc h)
    rw [categoryGroupsAux, ih, bumpCategory_groupCount (getCommitCategory c.message) c.message cat acc h,
      List.countP_cons]
    by_cases hc : getCommitCategory c.message = cat
    · simp [hc]
      omega
    · simp [hc]

theorem mem_keys_bumpCategory (cat m : String) (acc : List (String × CatData)) :
    cat ∈ keysOf (bumpCategory cat m acc) := by
  rw [bumpCategory_keys]
  by_cases h : cat ∈ keysOf acc <;> simp [h]

theorem keys_subset_bumpCategory (cat m : String) (acc : List (String × CatData)) :
    keysOf acc ⊆ keysOf (bumpCategory cat m acc) := by
  rw [bumpCategory_keys]
  by_cases h : cat ∈ keysOf acc
  · simp [h]
  · simp only [h, if_false]
    exact List.subset_append_left _ _

theorem keys_subset_categoryGroupsAux : ∀ (cs : List Commit) (acc : List (String × CatData)),
    keysOf acc ⊆ keysOf (categoryGroupsAux acc cs)
  | [], _ => fun _ hx => hx
  | c :: cs, acc => fun _x hx =>
    keys_subset_categoryGroupsAux cs _
      (keys_subset_bumpCategory (getCommitCategory c.message) c.message acc hx)

theorem categoryGroupsAux_covers : ∀ (cs : List Commit) (acc : List (String × CatData)),
    ∀ c ∈ cs, getCommitCategory c.message ∈ keysOf (categoryGroupsAux acc cs)
  | [], _, _, hm => absurd hm (by simp)
  | c0 :: cs, acc, c, hm => by
    rcases List.mem_cons.mp hm with rfl | hm'
    · exact keys_subset_categoryGroupsAux cs _
        (mem_keys_bumpCategory (getCommitCategory c.message) c.message acc)
    · exact categoryGroupsAux_covers cs _ c hm'

theorem categoryGroupsAux_keys_foldl : ∀ (cs : List Commit) (acc : List (String × CatData)),
    keysOf (categoryGroupsAux acc cs)
      = cs.foldl (fun a c =>
          if getCommitCategory c.message ∈ a then a else a ++ [getCommitCategory c.message])
        (keysOf acc)
  | [], _ => rfl
  | c :: cs, acc => by
    rw [categoryGroupsAux, categoryGroupsAux_keys_foldl cs _, List.foldl_cons, bumpCategory_keys]

theorem categoryGroups_keys_firstSeen (commits : List Commit) :
    keysOf (categoryGroups commits) = firstSeenLabels commits :=
  categoryGroupsAux_keys_foldl commits []

/-! ### Stable sort lemmas -/

/-- Inserting a task places it before every task of equal or smaller commit
count, so the subsequence at any fixed commit count gains the new task in
front when the counts agree and is untouched otherwise. -/
theorem filter_orderedInsert_commits (t : TaskSummary) (k : ℕ) :
    ∀ l : List TaskSummary,
      (List.orderedInsert taskOrder t l).filter (fun u => u.commits = k)
        = if t.commits = k then t :: l.filter (fun u => u.commits = k)
          else l.filter (fun u => u.commits = k)
  | [] => by
    by_cases hk : t.commits = k <;> simp [List.orderedInsert, List.filter_cons, hk]
  | b :: l => by
    by_cases hr : taskOrder t b
    · by_cases hk : t.commits = k <;>
        simp [List.orderedInsert, hr, List.filter_cons, hk]
    · have hlt : ¬ b.commits ≤ t.commits := hr
      have ih := filter_orderedInsert_commits t k l
      by_cases hbk : b.commits = k <;> by_cases hk : t.commits = k
      · exact absurd (le_of_eq (hbk.trans hk.symm)) hlt
      all_goals simp [List.orderedInsert, hr, List.filter_cons, hbk, hk, ih]

/-- Stability of the sort at each commit count: the tasks carrying a given
count appear in the sorted output exactly in their original order. -/
theorem filter_insertionSort_commits (k : ℕ) :
    ∀ l : List TaskSummary,
      (List.insertionSort taskOrder l).filter (fun u => u.commits = k)
        = l.filter (fun u => u.commits = k)
  | [] => rfl
  | b :: l => by
    rw [List.insertionSort, filter_orderedInsert_commits, filter_insertionSort_commits k l]
    by_cases hk : b.commits = k <;> simp [List.filter_cons, hk]

/-! ### Categorizer facts shared by several claims -/

theorem categorizeCommits_perm (commits : List Commit) :
    (categorizeCommits commits).Perm
      ((categoryGroups commits).map (fun p => TaskSummary.mk p.1 0 p.2.commits)) :=
  List.perm_insertionSort _ _

theorem categorizeCommits_mem_pos (commits : List Commit) :
    ∀ t ∈ categorizeCommits commits, 1 ≤ t.commits := by
  intro t ht
  have ht2 := (categorizeCommits_perm commits).mem_iff.mp ht
  obtain ⟨p, hp, rfl⟩ := List.mem_map.mp ht2
  exact categoryGroupsAux_entries_pos commits [] (by simp) p hp

theorem categorizeCommits_sum_length (commits : List Commit) :
    ((categorizeCommits commits).map (fun t => t.commits)).sum = commits.length := by
  have h1 : ((categorizeCommits commits).map (fun t => t.commits)).sum
      = (((categoryGroups commits).map (fun p => TaskSummary.mk p.1 0 p.2.commits)).map
          (fun t => t.commits)).sum :=
    ((categorizeCommits_perm commits).map (fun t => t.commits)).sum_eq
  rw [h1, List.map_map]
  simpa [categoryGroups] using categoryGroupsAux_sum commits [] (by simp [keysOf])

theorem categorizeCommits_sum_ne_zero (commits : List Commit)
    (hne : categorizeCommits commits ≠ []) :
    ((categorizeCommits commits).map (fun t => t.commits)).sum ≠ 0 := by
  obtain ⟨t, ht⟩ := List.exists_mem_of_ne_nil _ hne
  have hts : 1 ≤ t.commits := categorizeCommits_mem_pos commits t ht
  have hle : t.commits ≤ ((categorizeCommits commits).map (fun t => t.commits)).sum :=
    List.single_le_sum (fun x _ => Nat.zero_le x) _ (List.mem_map_of_mem _ ht)
  omega

/-- On categorizer output with a nonnegative budget, the allocator returns
hours summing exactly to the budget, whichever branch runs. -/
theorem heuristic_week_sum (cs : List Commit) (h : ℚ) (hn : 0 ≤ h) :
    ((distributeHours (categorizeCommits cs) h).map (fun t => t.hours)).sum = h := by
  by_cases hne : categorizeCommits cs = []
  · rw [hne]
    simp [distributeHours]
  · have hnz := categorizeCommits_sum_ne_zero cs hne
    have hloop := distributeLoop_sum h (((categorizeCommits cs).map (fun t => t.commits)).sum)
      (categorizeCommits cs) h hne
    have hnn := distributeLoop_hours_nonneg h (((categorizeCommits cs).map (fun t => t.commits)).sum)
      hn (categorizeCommits cs) h hn
    rw [show distributeHours (categorizeCommits cs) h
        = (distributeLoop h (((categorizeCommits cs).map (fun t => t.commits)).sum)
            (categorizeCommits cs) h).filter (fun task => 0 < task.hours) by
      simp [distributeHours, hne, hnz]]
    rw [sum_hours_filter_pos _ hnn, hloop]

/-! ### Theorems for claims C10, C5 and C4 -/

/-- C10: every task the categorizer produces counts at least one commit and
the counts sum to the number of input commits; hence a nonempty categorizer
output has a positive commit total and the allocator's defensive
zero-total-commits branch is not taken on categorizer output: the
proportional loop runs. -/
theorem categorizeCommits_counts (commits : List Commit) :
    (∀ t ∈ categorizeCommits commits, 1 ≤ t.commits) ∧
    ((categorizeCommits commits).map (fun t => t.commits)).sum = commits.length ∧
    (categorizeCommits commits ≠ [] →
      ((categorizeCommits commits).map (fun t => t.commits)).sum ≠ 0 ∧
      ∀ h : ℚ, distributeHours (categorizeCommits commits) h
        = (distributeLoop h (((categorizeCommits commits).map (fun t => t.commits)).sum)
            (categorizeCommits commits) h).filter (fun task => 0 < task.hours)) := by
  refine ⟨categorizeCommits_mem_pos commits, categorizeCommits_sum_length commits, fun hne => ?_⟩
  have hnz := categorizeCommits_sum_ne_zero commits hne
  exact ⟨hnz, fun h => by simp [distributeHours, hne, hnz]⟩

/-- Witness for C10 at a single bug-fix commit. -/
theorem categorizeCommits_counts_witness :
    1 ≤ (TaskSummary.mk "Bug fixes and error resolution" 0 1).commits ∧
    ((categorizeCommits [⟨"fix a", "r"⟩]).map (fun t => t.commits)).sum ≠ 0 :=
  ⟨(categorizeCommits_counts [⟨"fix a", "r"⟩]).1 _ (by decide),
   ((categorizeCommits_counts [⟨"fix a", "r"⟩]).2.2 (by decide)).1⟩

/-- C5: the categorizer is deterministic; it outputs one task per distinct
label carrying that label's exact commit count and zero hours; the output
is ordered by descending commit count; ties keep the grouping order, which
is the first-seen order of the labels. -/
theorem categorizeCommits_deterministic (commits : List Commit) :
    categorizeCommits commits = categorizeCommits commits ∧
    (∀ t ∈ categorizeCommits commits,
      t.hours = 0 ∧
      t.commits = commits.countP (fun c => getCommitCategory c.message = t.description)) ∧
    ((categorizeCommits commits).map (fun t => t.description)).Nodup ∧
    (∀ c ∈ commits,
      getCommitCategory c.message ∈ (categorizeCommits commits).map (fun t => t.description)) ∧
    (categorizeCommits commits).Pairwise taskOrder ∧
    (∀ k : ℕ,
      (categorizeCommits commits).filter (fun u => u.commits = k)
        = ((categoryGroups commits).map (fun p => TaskSummary.mk p.1 0 p.2.commits)).filter
            (fun u => u.commits = k)) ∧
    keysOf (categoryGroups commits) = firstSeenLabels commits := by
  have hnd : (keysOf (categoryGroups commits)).Nodup :=
    categoryGroupsAux_nodup commits [] (by simp [keysOf])
  have hperm : List.Perm
      (List.insertionSort taskOrder
        ((categoryGroups commits).map (fun p => TaskSummary.mk p.1 0 p.2.commits)))
      ((categoryGroups commits).map (fun p => TaskSummary.mk p.1 0 p.2.commits)) :=
    List.perm_insertionSort _ _
  have hdesc : ((categoryGroups commits).map
      (fun p => TaskSummary.mk p.1 0 p.2.commits)).map (fun t => t.description)
      = keysOf (categoryGroups commits) := by
    simp [keysOf, List.map_map]
  refine ⟨rfl, ?_, ?_, ?_, ?_, fun k => filter_insertionSort_commits k _,
    categoryGroups_keys_firstSeen commits⟩
  · intro t ht
    have ht2 : t ∈ (categoryGroups commits).map (fun p => TaskSummary.mk p.1 0 p.2.commits) := by
      simp only [categorizeCommits] at ht
      exact hperm.mem_iff.mp ht
    obtain ⟨p, hp, rfl⟩ := List.mem_map.mp ht2
    refine ⟨rfl, ?_⟩
    have h1 : groupCount (categoryGroups commits) p.1 = p.2.commits :=
      groupCount_of_mem p.1 p.2 (categoryGroups commits) hnd hp
    have h2 : groupCount (categoryGroups commits) p.1
        = commits.countP (fun c => getCommitCategory c.message = p.1) := by
      have := categoryGroupsAux_groupCount p.1 commits [] (by simp [keysOf])
      simpa [categoryGroups, groupCount] using this
    simp only [TaskSummary.mk.injEq]
    omega
  · have h1 : ((categorizeCommits commits).map (fun t => t.description)).Nodup ↔
        (((categoryGroups commits).map (fun p => TaskSummary.mk p.1 0 p.2.commits)).map
          (fun t => t.description)).Nodup :=
      (hperm.map (fun t => t.description)).nodup_iff
    rw [h1, hdesc]
    exact hnd
  · intro c hc
    have hcov : getCommitCategory c.message ∈ keysOf (categoryGroups commits) :=
      categoryGroupsAux_covers commits [] c hc
    rw [← hdesc] at hcov
    simp only [categorizeCommits]
    exact (hperm.map (fun t => t.description)).mem_iff.mpr hcov
  · exact List.sorted_insertionSort taskOrder _

/-- Witness for C5: two bug-fix commits and one feature commit. -/
theorem categorizeCommits_deterministic_witness :
    (TaskSummary.mk "Bug fixes and error resolution" 0 2).commits
      = ([⟨"fix a", "r"⟩, ⟨"feat b", "r"⟩, ⟨"fix c", "r"⟩] : List Commit).countP
          (fun c => getCommitCategory c.message
            = (TaskSummary.mk "Bug fixes and error resolution" 0 2).description) ∧
    getCommitCategory (Commit.mk "fix a" "r").message
      ∈ (categorizeCommits [⟨"fix a", "r"⟩, ⟨"feat b", "r"⟩, ⟨"fix c", "r"⟩]).map
          (fun t => t.description) :=
  ⟨((categorizeCommits_deterministic [⟨"fix a", "r"⟩, ⟨"feat b", "r"⟩, ⟨"fix c", "r"⟩]).2.1 _
      (by decide)).2,
   (categorizeCommits_deterministic [⟨"fix a", "r"⟩, ⟨"feat b", "r"⟩, ⟨"fix c", "r"⟩]).2.2.2.1 _
      (by decide)⟩

/-- C4: the sequential keyword conditionals of the code coincide with
first-match-wins evaluation of the fixed ordered rule table on the
lower-cased message; in particular a message containing both a bug-fix
keyword and a feature keyword takes the bug-fix label. -/
theorem getCommitCategory_ruleTable :
    (∀ message : String, getCommitCategory message = getCommitCategorySpec message) ∧
    getCommitCategory "fix feat" = "Bug fixes and error resolution" := by
  constructor
  · intro message
    simp only [getCommitCategory, getCommitCategorySpec, firstMatchLabel, categoryRules,
      List.any_cons, List.any_nil, Bool.or_false, Bool.or_assoc]
  · decide

/-! ### Theorems for claim C3 -/

/-- C3: when remote accumulation yields at least one record the week's
result is exactly the remote records and no local oracle (directory
resolution, customer search or git log) influences it; when remote
accumulation yields zero records the result derives solely from the
resolved local directories.  Remote and local commits are never mixed. -/
theorem gatherWeekCommits_fallback (wf : WeekFetch)
    (githubRepos repoPaths : Option (List String)) (customer : Option String) :
    (remoteCommits wf githubRepos ≠ [] →
      gatherWeekCommits wf githubRepos repoPaths customer = remoteCommits wf githubRepos ∧
      ∀ (rd : List String → List String) (cd : String → List String)
        (ll : String → List Commit),
        gatherWeekCommits { wf with resolveDirs := rd, customerDirs := cd, localLog := ll }
            githubRepos repoPaths customer
          = gatherWeekCommits wf githubRepos repoPaths customer) ∧
    (remoteCommits wf githubRepos = [] →
      gatherWeekCommits wf githubRepos repoPaths customer
        = (fallbackProjectDirs wf repoPaths customer).flatMap wf.localLog) := by
  constructor
  · intro hne
    have hlen : ¬ (remoteCommits wf githubRepos).length = 0 := by
      simpa [List.length_eq_zero] using hne
    have hrem : ∀ (rd : List String → List String) (cd : String → List String)
        (ll : String → List Commit),
        remoteCommits { wf with resolveDirs := rd, customerDirs := cd, localLog := ll }
          githubRepos = remoteCommits wf githubRepos := fun _ _ _ => rfl
    refine ⟨by simp [gatherWeekCommits, hlen], fun rd cd ll => ?_⟩
    simp [gatherWeekCommits, hrem, hlen]
  · intro hz
    simp [gatherWeekCommits, hz]

/-- Witness for C3: one remote repo returning one commit dominates
arbitrary local oracles. -/
theorem gatherWeekCommits_fallback_witness :
    remoteCommits
        ⟨"wk", fun _ => [⟨"fix a", "r"⟩], fun _ => [], fun _ => [], fun _ => []⟩
        (some ["o/r"]) ≠ [] ∧
    gatherWeekCommits
        ⟨"wk", fun _ => [⟨"fix a", "r"⟩], fun _ => [], fun _ => [], fun _ => []⟩
        (some ["o/r"]) (some ["/dir"]) (some "cust")
      = [⟨"fix a", "r"⟩] :=
  ⟨by simp [remoteCommits], by
    rw [((gatherWeekCommits_fallback
        ⟨"wk", fun _ => [⟨"fix a", "r"⟩], fun _ => [], fun _ => [], fun _ => []⟩
        (some ["o/r"]) (some ["/dir"]) (some "cust")).1 (by simp [remoteCommits])).1]
    simp [remoteCommits]⟩

/-! ### Assembly facts shared by several claims -/

/-- Every heuristic week carries the configured hours-per-week constant. -/
theorem heuristicWeeks_totalHours (weekFetches : List WeekFetch)
    (githubRepos repoPaths : Option (List String)) (customer : String) (hoursPerWeek : ℚ) :
    ∀ w ∈ heuristicWeeks weekFetches githubRepos repoPaths customer hoursPerWeek,
      w.totalHours = hoursPerWeek := by
  intro w hw
  obtain ⟨wf, _, rfl⟩ := List.mem_map.mp hw
  rfl

/-- Shape of the produced weeks: either exactly the heuristic weeks, or the
redistribution of one parsed line-item set into every week. -/
theorem generateInvoice_weeks_shape (weekFetches : List WeekFetch)
    (githubRepos repoPaths : Option (List String)) (customer : String)
    (hoursPerWeek : ℚ) (startLabel endLabel : String) :
    ∀ (aiEnabled : Bool) (aiOutcome : Except Unit AIAnalysisResult),
      ∃ d, generateInvoice weekFetches githubRepos repoPaths customer hoursPerWeek
          startLabel endLabel aiEnabled aiOutcome = some d ∧
        (d.weeks = heuristicWeeks weekFetches githubRepos repoPaths customer hoursPerWeek ∨
          ∃ s : String,
            d.weeks = overrideWeeks
              (heuristicWeeks weekFetches githubRepos repoPaths customer hoursPerWeek)
              (((heuristicWeeks weekFetches githubRepos repoPaths customer hoursPerWeek).map
                  (fun w => w.totalHours)).sum)
              (parseAILineItems s)) := by
  intro aiEnabled aiOutcome
  refine ⟨_, rfl, ?_⟩
  simp only [generateInvoice]
  split
  · rcases aiOutcome with e | r
    · left
      simp [heuristicWeeks, List.map_map]
    · rcases hlr : r.lineItems with _ | s
      · left
        simp [hlr, heuristicWeeks, List.map_map]
      · by_cases hs : s = ""
        · left
          simp [hlr, hs, heuristicWeeks, List.map_map]
        · right
          refine ⟨s, ?_⟩
          simp only [hlr, hs, heuristicWeeks, overrideWeeks, List.map_map]
          simp [hs]
          intro a _
          rfl
  · left
    simp [heuristicWeeks, List.map_map]

/-- With the AI disabled the produced weeks are exactly the heuristic
weeks. -/
theorem generateInvoice_ai_disabled_weeks (weekFetches : List WeekFetch)
    (githubRepos repoPaths : Option (List String)) (customer : String)
    (hoursPerWeek : ℚ) (startLabel endLabel : String)
    (aiOutcome : Except Unit AIAnalysisResult) :
    ∀ d, generateInvoice weekFetches githubRepos repoPaths customer hoursPerWeek
        startLabel endLabel false aiOutcome = some d →
      d.weeks = heuristicWeeks weekFetches githubRepos repoPaths customer hoursPerWeek := by
  intro d hd
  have h2 := Option.some.inj hd
  subst h2
  dsimp only
  rw [if_neg (by simp)]
  simp [heuristicWeeks, List.map_map]

/-! ### Theorems for claim C6 -/

/-- C6: an AI stage throw, an absent line-items field or an empty
line-items string leaves the invoice identical to the AI-disabled run on
the same inputs; the override is all-or-nothing (the produced weeks are
either exactly the heuristic weeks of the run, or the redistribution of
one parsed line-item set into every week); and a stage-1 throw can only
produce an absent line-items field. -/
theorem generateInvoice_ai_fallback (weekFetches : List WeekFetch)
    (githubRepos repoPaths : Option (List String)) (customer : String)
    (hoursPerWeek : ℚ) (startLabel endLabel : String) :
    (∀ aiOutcome : Except Unit AIAnalysisResult,
      (aiOutcome = .error () ∨
        ∃ r, aiOutcome = .ok r ∧ (r.lineItems = none ∨ r.lineItems = some "")) →
      ∀ other : Except Unit AIAnalysisResult,
        generateInvoice weekFetches githubRepos repoPaths customer hoursPerWeek
            startLabel endLabel true aiOutcome
          = generateInvoice weekFetches githubRepos repoPaths customer hoursPerWeek
            startLabel endLabel false other) ∧
    (∀ (aiEnabled : Bool) (aiOutcome : Except Unit AIAnalysisResult),
      ∃ d, generateInvoice weekFetches githubRepos repoPaths customer hoursPerWeek
          startLabel endLabel aiEnabled aiOutcome = some d ∧
        (d.weeks = heuristicWeeks weekFetches githubRepos repoPaths customer hoursPerWeek ∨
          ∃ s : String,
            d.weeks = overrideWeeks
              (heuristicWeeks weekFetches githubRepos repoPaths customer hoursPerWeek)
              (((heuristicWeeks weekFetches githubRepos repoPaths customer hoursPerWeek).map
                  (fun w => w.totalHours)).sum)
              (parseAILineItems s))) ∧
    (∀ (ai : AIConfig) (e : String) (stage2 : Except String String),
      (runAIAnalysis ai (.error e) stage2).lineItems = none) := by
  refine ⟨?_, ?_, ?_⟩
  · intro aiOutcome h other
    rcases h with rfl | ⟨r, rfl, hr⟩
    · simp [generateInvoice]
    · rcases hr with hr | hr <;> simp [generateInvoice, hr]
  · exact generateInvoice_weeks_shape weekFetches githubRepos repoPaths customer hoursPerWeek
      startLabel endLabel
  · intro ai e stage2
    rcases ai with ⟨aie, ⟨cae⟩, ⟨lie⟩⟩
    cases aie <;> cases cae <;> cases lie <;>
      simp [runAIAnalysis, analyzeCodeChanges]

/-- Witness for C6: a run with one remote commit and a throwing AI stage
equals the AI-disabled run. -/
theorem generateInvoice_ai_fallback_witness :
    ((.error () : Except Unit AIAnalysisResult) = .error () ∨
      ∃ r, (.error () : Except Unit AIAnalysisResult) = .ok r ∧
        (r.lineItems = none ∨ r.lineItems = some "")) ∧
    generateInvoice [⟨"wk", fun _ => [⟨"fix a", "r"⟩], fun _ => [], fun _ => [], fun _ => []⟩]
        (some ["o/r"]) none "Cust" 30 "s" "e" true (.error ())
      = generateInvoice [⟨"wk", fun _ => [⟨"fix a", "r"⟩], fun _ => [], fun _ => [], fun _ => []⟩]
        (some ["o/r"]) none "Cust" 30 "s" "e" false (.ok ⟨none, none⟩) :=
  ⟨Or.inl rfl,
    (generateInvoice_ai_fallback
      [⟨"wk", fun _ => [⟨"fix a", "r"⟩], fun _ => [], fun _ => [], fun _ => []⟩]
      (some ["o/r"]) none "Cust" 30 "s" "e").1 (.error ()) (Or.inl rfl) (.ok ⟨none, none⟩)⟩

/-! ### Theorems for claim C2 -/

/-- Evaluation helper for the half-hour rounding at concrete values. -/
theorem roundHalf_eval {q : ℚ} {z : ℤ} (h1 : (z : ℚ) ≤ q * 2 + 1/2)
    (h2 : q * 2 + 1/2 < (z : ℚ) + 1) : roundHalf q = (z : ℚ) / 2 := by
  have hfl : ⌊q * 2 + 1/2⌋ = z := Int.floor_eq_iff.mpr ⟨h1, h2⟩
  unfold roundHalf jsRound
  rw [hfl]

/-- C2 (amended): every produced week's totalHours equals the configured
hours-per-week constant on both paths; on the heuristic path (AI disabled)
each week's task hours sum exactly to it, for a nonnegative configured
budget.  The claimed at-most bound on the AI path fails on the code; see
the counterexample. -/
theorem generateInvoice_week_totals (weekFetches : List WeekFetch)
    (githubRepos repoPaths : Option (List String)) (customer : String)
    (hoursPerWeek : ℚ) (startLabel endLabel : String) :
    (∀ (aiEnabled : Bool) (aiOutcome : Except Unit AIAnalysisResult) (d : InvoiceData),
      generateInvoice weekFetches githubRepos repoPaths customer hoursPerWeek
          startLabel endLabel aiEnabled aiOutcome = some d →
      ∀ w ∈ d.weeks, w.totalHours = hoursPerWeek) ∧
    (0 ≤ hoursPerWeek →
      ∀ (aiOutcome : Except Unit AIAnalysisResult) (d : InvoiceData),
        generateInvoice weekFetches githubRepos repoPaths customer hoursPerWeek
            startLabel endLabel false aiOutcome = some d →
        ∀ w ∈ d.weeks, (w.tasks.map (fun t => t.hours)).sum = w.totalHours) := by
  constructor
  · intro aiEnabled aiOutcome d hd w hw
    obtain ⟨d2, hd2, hshape⟩ := generateInvoice_weeks_shape weekFetches githubRepos repoPaths
      customer hoursPerWeek startLabel endLabel aiEnabled aiOutcome
    have hdd : d2 = d := by
      rw [hd2] at hd
      exact Option.some.inj hd
    subst hdd
    rcases hshape with he | ⟨s, he⟩
    · rw [he] at hw
      exact heuristicWeeks_totalHours weekFetches githubRepos repoPaths customer hoursPerWeek w hw
    · rw [he] at hw
      simp only [overrideWeeks, List.mem_map] at hw
      obtain ⟨week, hweek, rfl⟩ := hw
      exact heuristicWeeks_totalHours weekFetches githubRepos repoPaths customer hoursPerWeek
        week hweek
  · intro hnn aiOutcome d hd w hw
    rw [generateInvoice_ai_disabled_weeks weekFetches githubRepos repoPaths customer hoursPerWeek
      startLabel endLabel aiOutcome d hd] at hw
    obtain ⟨wf, _, rfl⟩ := List.mem_map.mp hw
    exact heuristic_week_sum _ hoursPerWeek hnn

/-- Witness for C2: one remote commit, 30 configured hours, AI disabled. -/
theorem generateInvoice_week_totals_witness :
    (0 : ℚ) ≤ 30 ∧
    (((analyzeWeekWithCommits
          ⟨"wk", fun _ => [⟨"fix a", "r"⟩], fun _ => [], fun _ => [], fun _ => []⟩
          30 (some ["o/r"]) none (some "Cust")).1.tasks.map (fun t => t.hours)).sum
      = (analyzeWeekWithCommits
          ⟨"wk", fun _ => [⟨"fix a", "r"⟩], fun _ => [], fun _ => [], fun _ => []⟩
          30 (some ["o/r"]) none (some "Cust")).1.totalHours) :=
  ⟨by norm_num,
    (generateInvoice_week_totals
        [⟨"wk", fun _ => [⟨"fix a", "r"⟩], fun _ => [], fun _ => [], fun _ => []⟩]
        (some ["o/r"]) none "Cust" 30 "s" "e").2 (by norm_num) (.error ()) _ rfl _
      (List.mem_singleton.mpr rfl)⟩

/-- C2 counterexample: with one commit, a 30 hour week and the AI stage
returning the single line item `100hr - Extra work`, the produced week has
totalHours 30 but its tasks sum to 100 hours: the redistributed AI hours
are not bounded by the week's totalHours. -/
theorem generateInvoice_ai_week_sum_counterexample :
    ((generateInvoice [⟨"wk", fun _ => [⟨"fix a", "r"⟩], fun _ => [], fun _ => [], fun _ => []⟩]
        (some ["o/r"]) none "Cust" 30 "s" "e" true
        (.ok ⟨some "analysis", some "100hr - Extra work"⟩)).map (fun d => d.weeks))
      = some [⟨"wk", 30, [⟨"Extra work", 100, 0⟩]⟩] ∧
    ¬ ((([⟨"Extra work", (100 : ℚ), 0⟩] : List TaskSummary).map (fun t => t.hours)).sum
        ≤ (30 : ℚ)) := by
  constructor
  · have hfd : floatOfDigits ['1', '0', '0'] [] = 100 := by
      rw [floatOfDigits, show natOfDigits ['1', '0', '0'] = 100 from rfl,
        show natOfDigits [] = 0 from rfl]
      norm_num
    have hparse : parseAILineItems "100hr - Extra work" = [⟨"Extra work", (100 : ℚ), 0⟩] := by
      have h0 : parseAILineItems "100hr - Extra work"
          = [⟨"Extra work", floatOfDigits ['1', '0', '0'] [], 0⟩] := rfl
      rw [h0, hfd]
    have h1 : ((generateInvoice
          [⟨"wk", fun _ => [⟨"fix a", "r"⟩], fun _ => [], fun _ => [], fun _ => []⟩]
          (some ["o/r"]) none "Cust" 30 "s" "e" true
          (.ok ⟨some "analysis", some "100hr - Extra work"⟩)).map (fun d => d.weeks))
        = some (overrideWeeks
            [⟨"wk", 30, distributeHours (categorizeCommits [⟨"fix a", "r"⟩]) 30⟩]
            ([(30 : ℚ)].sum) (parseAILineItems "100hr - Extra work")) := rfl
    rw [h1, hparse]
    have hsum30 : ([(30 : ℚ)].sum) = 30 := by simp
    have hr : roundHalf (100 : ℚ) = 100 := by
      rw [roundHalf_eval (q := (100 : ℚ)) (z := 200) (by norm_num) (by norm_num)]
      norm_num
    simp [overrideWeeks, hsum30, hr, List.filter, show (0 : ℚ) < 100 from by norm_num]
  · simp
    norm_num

/-! ### Theorems for claim C8 -/

/-- C8 (amended): the assembler never returns null: for every input the
result is a valid InvoiceData; and when every week's gathering yields zero
commits, each produced week carries exactly the single synthesized
"Development and maintenance" task with the full budget (not zero
tasks). -/
theorem generateInvoice_never_null (weekFetches : List WeekFetch)
    (githubRepos repoPaths : Option (List String)) (customer : String)
    (hoursPerWeek : ℚ) (startLabel endLabel : String)
    (aiEnabled : Bool) (aiOutcome : Except Unit AIAnalysisResult) :
    (∃ d, generateInvoice weekFetches githubRepos repoPaths customer hoursPerWeek
        startLabel endLabel aiEnabled aiOutcome = some d) ∧
    ((∀ wf ∈ weekFetches, gatherWeekCommits wf githubRepos repoPaths (some customer) = []) →
      ∀ d, generateInvoice weekFetches githubRepos repoPaths customer hoursPerWeek
          startLabel endLabel aiEnabled aiOutcome = some d →
        d.weeks = weekFetches.map (fun wf =>
          WeeklyWork.mk wf.dateRange hoursPerWeek
            [⟨"Development and maintenance", hoursPerWeek, 0⟩])) := by
  refine ⟨⟨_, rfl⟩, ?_⟩
  intro hz d hd
  have h2 := Option.some.inj hd
  subst h2
  dsimp only
  have hall : ((weekFetches.map (fun wf =>
      analyzeWeekWithCommits wf hoursPerWeek githubRepos repoPaths (some customer))).flatMap
        (fun r => r.2)) = [] := by
    rw [List.flatMap_eq_nil_iff]
    intro x hx
    obtain ⟨wf, hwf, rfl⟩ := List.mem_map.mp hx
    exact hz wf hwf
  rw [if_neg (by simp [hall])]
  rw [List.map_map]
  apply List.map_congr_left
  intro wf hwf
  have hempty : gatherWeekCommits wf githubRepos repoPaths (some customer) = [] := hz wf hwf
  simp only [Function.comp, analyzeWeekWithCommits, hempty]
  simp [distributeHours, categorizeCommits, categoryGroups, categoryGroupsAux, List.insertionSort]

/-- Witness for C8: a single week whose oracles all yield nothing. -/
theorem generateInvoice_never_null_witness :
    gatherWeekCommits ⟨"wk", fun _ => [], fun _ => [], fun _ => [], fun _ => []⟩
        (some ["o/r"]) (some ["/d"]) (some "Cust") = [] ∧
    ∃ d, generateInvoice [⟨"wk", fun _ => [], fun _ => [], fun _ => [], fun _ => []⟩]
          (some ["o/r"]) (some ["/d"]) "Cust" 30 "s" "e" false (.error ()) = some d ∧
        d.weeks = [⟨"wk", (30 : ℚ), [⟨"Development and maintenance", 30, 0⟩]⟩] := by
  have h := generateInvoice_never_null
    [⟨"wk", fun _ => [], fun _ => [], fun _ => [], fun _ => []⟩]
    (some ["o/r"]) (some ["/d"]) "Cust" 30 "s" "e" false (.error ())
  obtain ⟨d, hd⟩ := h.1
  refine ⟨rfl, d, hd, ?_⟩
  rw [h.2 (fun wf hwf => by rw [List.mem_singleton.mp hwf]; rfl) d hd]
  rfl

/-- C8 counterexample: a zero-commit window does not yield a zero-task
invoice: the week carries the synthesized task, so its task list is not
empty. -/
theorem generateInvoice_zero_task_counterexample :
    ((generateInvoice [⟨"wk", fun _ => [], fun _ => [], fun _ => [], fun _ => []⟩]
        (some ["o/r"]) (some ["/d"]) "Cust" 30 "s" "e" false (.error ())).map
          (fun d => d.weeks.map (fun w => w.tasks)))
      = some [[⟨"Development and maintenance", (30 : ℚ), 0⟩]] ∧
    some [[(⟨"Development and maintenance", (30 : ℚ), 0⟩ : TaskSummary)]]
      ≠ some [([] : List TaskSummary)] := by
  constructor
  · rfl
  · simp

/-! ### Theorems for claim C7 -/

/-- C7 (amended): with a startDate present, the bi-weekly-sunday evaluator
answers true exactly on Sundays whose floored week offset from the start is
even; the spec's concrete dates behave as stated; and the missing-startDate
configuration error is thrown exactly on Sundays — on any other day the
evaluator answers false before consulting the startDate. -/
theorem shouldRunToday_biWeekly (configId : String) (today startDate : JSDate) :
    (shouldRunToday ⟨.biWeeklySunday, some startDate⟩ configId today = .ok true ↔
      (getDay today = 0 ∧
        2 ∣ Int.fdiv (epochMs today - epochMs startDate) msPerWeek)) ∧
    shouldRunToday ⟨.biWeeklySunday, some ⟨2024, 9, 15⟩⟩ configId ⟨2024, 9, 15⟩ = .ok true ∧
    shouldRunToday ⟨.biWeeklySunday, some ⟨2024, 9, 15⟩⟩ configId ⟨2024, 9, 22⟩ = .ok false ∧
    shouldRunToday ⟨.biWeeklySunday, some ⟨2024, 9, 15⟩⟩ configId ⟨2024, 9, 29⟩ = .ok true ∧
    (getDay today = 0 →
      shouldRunToday ⟨.biWeeklySunday, none⟩ configId today
        = .error ("bi-weekly-sunday schedule requires a startDate for config " ++ configId)) := by
  refine ⟨?_, rfl, rfl, rfl, ?_⟩
  · by_cases hd : getDay today = 0
    · have hnot : ¬ getDay today ≠ 0 := not_not_intro hd
      have hstep : shouldRunToday ⟨.biWeeklySunday, some startDate⟩ configId today
          = .ok (decide
              (Int.tmod (Int.fdiv (epochMs today - epochMs startDate) msPerWeek) 2 = 0)) := by
        simp only [shouldRunToday]
        rw [if_neg hnot]
      rw [hstep]
      constructor
      · intro h
        exact ⟨hd, Int.dvd_of_tmod_eq_zero (of_decide_eq_true (Except.ok.inj h))⟩
      · rintro ⟨-, hdvd⟩
        simp [Int.tmod_eq_zero_of_dvd hdvd]
    · have hstep : shouldRunToday ⟨.biWeeklySunday, some startDate⟩ configId today
          = .ok false := by
        simp only [shouldRunToday]
        rw [if_pos hd]
      rw [hstep]
      constructor
      · intro h
        exact absurd (Except.ok.inj h) (by simp)
      · rintro ⟨hd2, -⟩
        exact absurd hd2 hd
  · intro hd
    have hnot : ¬ getDay today ≠ 0 := not_not_intro hd
    simp only [shouldRunToday]
    rw [if_neg hnot]

/-- C7 counterexample: on Monday 2024-09-16 a bi-weekly-sunday schedule
with a missing startDate is not reported as a configuration error: the
evaluator answers false. -/
theorem shouldRunToday_missing_startDate_counterexample :
    shouldRunToday ⟨.biWeeklySunday, none⟩ "the-config" ⟨2024, 9, 16⟩ = .ok false ∧
    ¬ ∃ e, shouldRunToday ⟨.biWeeklySunday, none⟩ "the-config" ⟨2024, 9, 16⟩ = .error e := by
  constructor
  · rfl
  · rintro ⟨e, he⟩
    rw [show shouldRunToday ⟨.biWeeklySunday, none⟩ "the-config" ⟨2024, 9, 16⟩
        = .ok false from rfl] at he
    exact Except.noConfusion he

/-- Witness for C7: on Sunday 2024-09-22 the missing startDate is reported
as the configuration error. -/
theorem shouldRunToday_biWeekly_witness :
    getDay ⟨2024, 9, 22⟩ = 0 ∧
    shouldRunToday ⟨.biWeeklySunday, none⟩ "cfg" ⟨2024, 9, 22⟩
      = .error ("bi-weekly-sunday schedule requires a startDate for config " ++ "cfg") :=
  ⟨by decide,
    (shouldRunToday_biWeekly "cfg" ⟨2024, 9, 22⟩ ⟨2024, 9, 22⟩).2.2.2.2 (by decide)⟩

end InvoiceGen
